import Mathlib

/-!
Shallow embedding of the shunting-slot core (files `shunting_slot_model.py` and
`app.py`): interval merging, busy/free window computation and first-fit slot
finding over occupancy records.

Modelling conventions:
* Instants (Python `datetime` values) are integer timestamps in seconds; a
  `timedelta(minutes=m)` is `m * 60` seconds and `.total_seconds()` is the
  identity on this representation.  All the core algorithms only compare
  instants and take `max`/`min`, so any linearly ordered carrier is faithful.
* Python's `sorted`/`list.sort` is a stable sort; it is modelled by
  `List.insertionSort`, which is stable, applied to the same key relation
  (`key=lambda x: x[0]`, i.e. comparison of the interval starts).
* CSV loading, datetime parsing and the Streamlit UI are I/O glue outside the
  algorithmic core; the embedded functions receive already-parsed records and
  instants, exactly as the core functions do after their glue runs.
* The in-place `intervals.sort(...)` of `app.py`'s `merge_intervals` is
  modelled by explicit state passing: the function returns the final contents
  of its list argument together with its return value.
-/

/-- One row of the schedule: columns `TrainID`, `Track`, `Arrival`, `Departure`
(`shunting_slot_model.py` reads them from a CSV, `app.py` from dict rows). -/
structure OccupancyRecord where
  trainId : String
  track : String
  arrival : Int
  departure : Int

/-- The sort key relation used by both `merge_intervals` variants:
`sorted(intervals, key=lambda x: x[0])` compares interval starts. -/
def le1 (a b : Int × Int) : Prop := a.1 ≤ b.1

instance : DecidableRel le1 := fun a b => (inferInstance : Decidable (a.1 ≤ b.1))

instance : IsTotal (Int × Int) le1 := ⟨fun a b => Int.le_total a.1 b.1⟩

instance : IsTrans (Int × Int) le1 := ⟨fun _ _ _ h1 h2 => le_trans h1 h2⟩

/-- Strict separation of two intervals: the first starts no later and ends
strictly before the second starts. -/
def le_sep (a b : Int × Int) : Prop := a.1 ≤ b.1 ∧ a.2 < b.1

instance : IsTrans (Int × Int) le_sep :=
  ⟨fun _ _ _ h1 h2 => ⟨le_trans h1.1 h2.1, lt_of_lt_of_le h1.2 h2.1⟩⟩

/-- The left-to-right sweep of `merge_intervals` (`shunting_slot_model.py`
lines 41-48): `merged = [intervals_sorted[0]]`, then for each next `(s, e)`,
if `s <= last_e` replace the last merged interval by
`(last_s, max(last_e, e))`, else append `(s, e)`.  Here `cur` is the last
element of `merged` and the already-closed prefix is emitted on the left. -/
def mergeLoop : Int × Int → List (Int × Int) → List (Int × Int)
  | cur, [] => [cur]
  | cur, (s, e) :: rest =>
    if s ≤ cur.2 then mergeLoop (cur.1, max cur.2 e) rest
    else cur :: mergeLoop (s, e) rest

/-- `merge_intervals` of `shunting_slot_model.py` (lines 33-49): sort by start
(stable), then sweep.  The empty-input early return coincides with the `[]`
branch of the match. -/
def merge_intervals (intervals : List (Int × Int)) : List (Int × Int) :=
  match List.insertionSort le1 intervals with
  | [] => []
  | x :: xs => mergeLoop x xs

/-- `get_busy_intervals_for_track` (`shunting_slot_model.py` lines 52-64):
filter the rows to the queried track, clip each to the window via
`s = max(arrival, window_start)`, `e = min(departure, window_end)`, keep the
pair only when `s < e`, and merge the survivors. -/
def get_busy_intervals_for_track (df : List OccupancyRecord) (track : String)
    (window_start window_end : Int) : List (Int × Int) :=
  merge_intervals
    ((df.filter (fun r => r.track == track)).filterMap (fun r =>
      if max r.arrival window_start < min r.departure window_end then
        some (max r.arrival window_start, min r.departure window_end)
      else none))

/-- The complement sweep shared verbatim by `get_free_intervals_for_track`
(`shunting_slot_model.py` lines 73-81) and `get_free_intervals` (`app.py`
lines 74-82): walk the busy list with a cursor, emit `(cursor, s)` whenever
`cursor < s`, advance the cursor to `max(cursor, e)`, and finally emit
`(cursor, window_end)` when `cursor < window_end`. -/
def freeLoop : Int → List (Int × Int) → Int → List (Int × Int)
  | cursor, [], window_end =>
    if cursor < window_end then [(cursor, window_end)] else []
  | cursor, (s, e) :: rest, window_end =>
    if cursor < s then (cursor, s) :: freeLoop (max cursor e) rest window_end
    else freeLoop (max cursor e) rest window_end

/-- `get_free_intervals_for_track` (`shunting_slot_model.py` lines 67-81):
recompute the busy intervals and take their complement in the window. -/
def get_free_intervals_for_track (df : List OccupancyRecord) (track : String)
    (window_start window_end : Int) : List (Int × Int) :=
  freeLoop window_start (get_busy_intervals_for_track df track window_start window_end)
    window_end

/-- `compute_slots_for_all_tracks` (`shunting_slot_model.py` lines 84-107):
reject `window_start >= window_end` with a `ValueError`, otherwise report, for
each distinct track name in ascending order, the busy and the free intervals.
The CSV loading and the ISO-string formatting of the result are I/O glue; the
embedding keeps the intervals themselves. -/
def compute_slots_for_all_tracks (df : List OccupancyRecord) (ws we : Int) :
    Except String (List (String × List (Int × Int) × List (Int × Int))) :=
  if ws ≥ we then Except.error "window_start must be before window_end"
  else
    Except.ok ((List.insertionSort (fun a b : String => a ≤ b) (df.map OccupancyRecord.track).dedup).map
      (fun t => (t, get_busy_intervals_for_track df t ws we,
                    get_free_intervals_for_track df t ws we)))

/-- `merge_intervals` of `app.py` (lines 49-60).  Unlike the model version it
sorts its list argument **in place** (`intervals.sort(...)`); the embedding
returns the pair (final contents of the argument, returned merged list).  On
empty input the function returns early and the argument is untouched. -/
def merge_intervals_app (intervals : List (Int × Int)) :
    List (Int × Int) × List (Int × Int) :=
  if intervals.isEmpty then (intervals, [])
  else
    (List.insertionSort le1 intervals,
      match List.insertionSort le1 intervals with
      | [] => []
      | x :: xs => mergeLoop x xs)

/-- `get_busy_intervals` of `app.py` (lines 62-71): same clipping as the model
version, with the track filter fused into the loop via `continue`, feeding the
app-side merge (whose in-place sort only affects the local `intervals` list). -/
def get_busy_intervals (rows : List OccupancyRecord) (track : String)
    (ws we : Int) : List (Int × Int) :=
  (merge_intervals_app (rows.filterMap (fun r =>
    if r.track == track then
      if max r.arrival ws < min r.departure we then
        some (max r.arrival ws, min r.departure we)
      else none
    else none))).2

/-- `get_free_intervals` of `app.py` (lines 73-82): complement of an already
computed busy list within the window; the loop body is identical to the model
version's. -/
def get_free_intervals (busy : List (Int × Int)) (ws we : Int) :
    List (Int × Int) :=
  freeLoop ws busy we

/-- `find_first_free_slot` of `app.py` (lines 84-88): scan the free intervals
in order and return `(s, s + timedelta(minutes=required_minutes))` for the
first one with `(e - s).total_seconds() >= required_minutes * 60`; `None`
when no interval qualifies. -/
def find_first_free_slot (free_intervals : List (Int × Int))
    (required_minutes : Int) : Option (Int × Int) :=
  match free_intervals with
  | [] => none
  | (s, e) :: rest =>
    if required_minutes * 60 ≤ e - s then some (s, s + required_minutes * 60)
    else find_first_free_slot rest required_minutes

/-- The "Compute Slots" handler of `app.py` (lines 137-163): reject
`ws >= we` with an error message, otherwise compute busy, free and the first
free slot for the selected track. -/
def compute_slots_handler (rows : List OccupancyRecord) (track : String)
    (ws we required_minutes : Int) :
    Except String (List (Int × Int) × List (Int × Int) × Option (Int × Int)) :=
  if ws ≥ we then Except.error "Window start must be before window end."
  else
    Except.ok (get_busy_intervals rows track ws we,
      get_free_intervals (get_busy_intervals rows track ws we) ws we,
      find_first_free_slot (get_free_intervals (get_busy_intervals rows track ws we) ws we)
        required_minutes)

/-- A time point `t` is covered by a list of intervals when it lies in some
member, reading an interval `(s, e)` as the half-open span `[s, e)` (the
covering semantics under which clipping and complement are exact). -/
def mem_intervals (t : Int) (l : List (Int × Int)) : Prop :=
  ∃ iv ∈ l, iv.1 ≤ t ∧ t < iv.2

lemma mem_intervals_nil (t : Int) : ¬ mem_intervals t [] := by
  simp [mem_intervals]

lemma mem_intervals_cons {t : Int} {iv : Int × Int} {l : List (Int × Int)} :
    mem_intervals t (iv :: l) ↔ (iv.1 ≤ t ∧ t < iv.2) ∨ mem_intervals t l := by
  simp [mem_intervals, List.mem_cons, or_and_right, exists_or]

/-! ### Structure of the merge sweep -/

/-- The sweep never discards its running interval: the result starts with an
interval whose start is the running start and whose end extends the running
end. -/
lemma mergeLoop_shape : ∀ (xs : List (Int × Int)) (cur : Int × Int),
    ∃ E rest, mergeLoop cur xs = (cur.1, E) :: rest ∧ cur.2 ≤ E := by
  intro xs
  induction xs with
  | nil => intro cur; exact ⟨cur.2, [], rfl, le_refl _⟩
  | cons hd tl ih =>
    intro cur
    obtain ⟨s, e⟩ := hd
    by_cases h : s ≤ cur.2
    · rw [mergeLoop, if_pos h]
      obtain ⟨E, rest, heq, hle⟩ := ih (cur.1, max cur.2 e)
      exact ⟨E, rest, heq, le_trans (le_max_left _ _) hle⟩
    · rw [mergeLoop, if_neg h]
      exact ⟨cur.2, _, rfl, le_refl _⟩

/-- On an input sorted by start whose heads all start no earlier than the
running interval, the sweep emits a start-sorted, strictly separated list. -/
lemma mergeLoop_chain : ∀ (xs : List (Int × Int)) (cur : Int × Int),
    (∀ p ∈ xs, cur.1 ≤ p.1) → List.Sorted le1 xs →
    List.Chain' le_sep (mergeLoop cur xs) := by
  intro xs
  induction xs with
  | nil => intro cur _ _; simp [mergeLoop]
  | cons hd tl ih =>
    intro cur hcur hs
    obtain ⟨s, e⟩ := hd
    rw [List.sorted_cons] at hs
    by_cases h : s ≤ cur.2
    · rw [mergeLoop, if_pos h]
      exact ih (cur.1, max cur.2 e)
        (fun p hp => hcur p (List.mem_cons_of_mem _ hp)) hs.2
    · rw [mergeLoop, if_neg h]
      obtain ⟨E, rest, heq, _⟩ := mergeLoop_shape tl (s, e)
      rw [heq]
      refine List.Chain'.cons ⟨hcur (s, e) (List.mem_cons_self _ _), not_le.mp h⟩ ?_
      rw [← heq]
      exact ih (s, e) (fun p hp => hs.1 p hp) hs.2

/-- The output of `merge_intervals` is a start-sorted, strictly separated
chain, for any input whatsoever. -/
lemma merge_intervals_chain (l : List (Int × Int)) :
    List.Chain' le_sep (merge_intervals l) := by
  unfold merge_intervals
  rcases hs : List.insertionSort le1 l with _ | ⟨x, xs⟩
  · simp
  · have hsorted : List.Sorted le1 (x :: xs) := by
      rw [← hs]; exact List.sorted_insertionSort le1 l
    rw [List.sorted_cons] at hsorted
    exact mergeLoop_chain xs x hsorted.1 hsorted.2

/-- Any property preserved by the merge step `(a, b), (c, d) ↦ (a, max b d)`
carries from the sweep's inputs to its outputs. -/
lemma mergeLoop_forall (P : Int × Int → Prop)
    (hP : ∀ a b c d, P (a, b) → P (c, d) → P (a, max b d)) :
    ∀ (xs : List (Int × Int)) (cur : Int × Int), P cur → (∀ p ∈ xs, P p) →
    ∀ q ∈ mergeLoop cur xs, P q := by
  intro xs
  induction xs with
  | nil =>
    intro cur hc _ q hq
    rw [mergeLoop, List.mem_singleton] at hq
    rwa [hq]
  | cons hd tl ih =>
    intro cur hc hall q hq
    obtain ⟨s, e⟩ := hd
    by_cases h : s ≤ cur.2
    · rw [mergeLoop, if_pos h] at hq
      exact ih (cur.1, max cur.2 e)
        (hP cur.1 cur.2 s e hc (hall (s, e) (List.mem_cons_self _ _)))
        (fun p hp => hall p (List.mem_cons_of_mem _ hp)) q hq
    · rw [mergeLoop, if_neg h] at hq
      rcases List.mem_cons.mp hq with h1 | h2
      · rwa [h1]
      · exact ih (s, e) (hall _ (List.mem_cons_self _ _))
          (fun p hp => hall p (List.mem_cons_of_mem _ hp)) q h2

/-- Any property preserved by the merge step carries from the inputs of
`merge_intervals` to its outputs. -/
lemma merge_intervals_forall (P : Int × Int → Prop)
    (hP : ∀ a b c d, P (a, b) → P (c, d) → P (a, max b d))
    (l : List (Int × Int)) (hl : ∀ p ∈ l, P p) :
    ∀ q ∈ merge_intervals l, P q := by
  unfold merge_intervals
  rcases hs : List.insertionSort le1 l with _ | ⟨x, xs⟩
  · simp
  · have hmem : ∀ p ∈ x :: xs, P p := by
      intro p hp
      refine hl p ?_
      have : p ∈ List.insertionSort le1 l := by rw [hs]; exact hp
      exact (List.mem_insertionSort le1).mp this
    exact mergeLoop_forall P hP xs x (hmem x (List.mem_cons_self _ _))
      (fun p hp => hmem p (List.mem_cons_of_mem _ hp))

/-- Strict separation is transitive, so a separated chain is pairwise
separated. -/
lemma chain_sep_pairwise {l : List (Int × Int)} (h : List.Chain' le_sep l) :
    List.Pairwise le_sep l :=
  List.chain'_iff_pairwise.mp h

/-- Outputs of `merge_intervals` keep `start ≤ end` whenever the inputs have
it. -/
lemma merge_intervals_le (l : List (Int × Int)) (h : ∀ iv ∈ l, iv.1 ≤ iv.2) :
    ∀ q ∈ merge_intervals l, q.1 ≤ q.2 :=
  merge_intervals_forall (fun iv => iv.1 ≤ iv.2)
    (fun _ _ _ _ h1 _ => le_trans h1 (le_max_left _ _)) l h

/-- Outputs of `merge_intervals` keep `start < end` whenever the inputs have
it. -/
lemma merge_intervals_lt (l : List (Int × Int)) (h : ∀ iv ∈ l, iv.1 < iv.2) :
    ∀ q ∈ merge_intervals l, q.1 < q.2 :=
  merge_intervals_forall (fun iv => iv.1 < iv.2)
    (fun _ _ _ _ h1 _ => lt_of_lt_of_le h1 (le_max_left _ _)) l h

/-- The output of `merge_intervals` is sorted with respect to the sort key. -/
lemma merge_intervals_sorted (l : List (Int × Int)) :
    List.Sorted le1 (merge_intervals l) :=
  List.chain'_iff_pairwise.mp ((merge_intervals_chain l).imp (fun _ _ h => h.1))

/-- On an already strictly separated list the sweep merges nothing. -/
lemma mergeLoop_of_sep : ∀ (xs : List (Int × Int)) (cur : Int × Int),
    (∀ p ∈ xs.head?, cur.2 < p.1) →
    List.Chain' (fun a b : Int × Int => a.2 < b.1) xs →
    mergeLoop cur xs = cur :: xs := by
  intro xs
  induction xs with
  | nil => intro cur _ _; rfl
  | cons hd tl ih =>
    intro cur hhd hc
    obtain ⟨s, e⟩ := hd
    have hlt : cur.2 < s := hhd (s, e) rfl
    rw [mergeLoop, if_neg (not_le.mpr hlt)]
    rw [List.chain'_cons'] at hc
    rw [ih (s, e) hc.1 hc.2]

/-! ### Structure of the complement sweep -/

/-- Every interval the complement sweep emits is proper (`start < end`),
whatever the busy list looks like. -/
lemma freeLoop_lt : ∀ (bs : List (Int × Int)) (c we : Int),
    ∀ iv ∈ freeLoop c bs we, iv.1 < iv.2 := by
  intro bs
  induction bs with
  | nil =>
    intro c we iv hiv
    rw [freeLoop] at hiv
    by_cases h : c < we
    · rw [if_pos h, List.mem_singleton] at hiv
      rw [hiv]; exact h
    · rw [if_neg h] at hiv; cases hiv
  | cons hd tl ih =>
    intro c we iv hiv
    obtain ⟨s, e⟩ := hd
    rw [freeLoop] at hiv
    by_cases h : c < s
    · rw [if_pos h] at hiv
      rcases List.mem_cons.mp hiv with h1 | h2
      · rw [h1]; exact h
      · exact ih (max c e) we iv h2
    · rw [if_neg h] at hiv
      exact ih (max c e) we iv hiv

/-- Everything the complement sweep emits starts at or after the cursor. -/
lemma freeLoop_cursor_le : ∀ (bs : List (Int × Int)) (c we : Int),
    ∀ iv ∈ freeLoop c bs we, c ≤ iv.1 := by
  intro bs
  induction bs with
  | nil =>
    intro c we iv hiv
    rw [freeLoop] at hiv
    by_cases h : c < we
    · rw [if_pos h, List.mem_singleton] at hiv
      rw [hiv]
    · rw [if_neg h] at hiv; cases hiv
  | cons hd tl ih =>
    intro c we iv hiv
    obtain ⟨s, e⟩ := hd
    rw [freeLoop] at hiv
    by_cases h : c < s
    · rw [if_pos h] at hiv
      rcases List.mem_cons.mp hiv with h1 | h2
      · rw [h1]
      · exact le_trans (le_max_left c e) (ih (max c e) we iv h2)
    · rw [if_neg h] at hiv
      exact le_trans (le_max_left c e) (ih (max c e) we iv hiv)

/-- A covered point lies at or after the cursor of the complement sweep. -/
lemma mem_freeLoop_cursor_le {t : Int} (bs : List (Int × Int)) (c we : Int)
    (h : mem_intervals t (freeLoop c bs we)) : c ≤ t := by
  obtain ⟨iv, hiv, h1, _⟩ := h
  exact le_trans (freeLoop_cursor_le bs c we iv hiv) h1

/-- On a pairwise separated busy list whose intervals are proper and start at
or after the cursor, the complement sweep emits a start-sorted strictly
separated list. -/
lemma freeLoop_chain : ∀ (bs : List (Int × Int)) (c we : Int),
    (∀ iv ∈ bs, c ≤ iv.1 ∧ iv.1 < iv.2) →
    List.Pairwise (fun a b : Int × Int => a.2 < b.1) bs →
    List.Chain' le_sep (freeLoop c bs we) := by
  intro bs
  induction bs with
  | nil =>
    intro c we _ _
    rw [freeLoop]
    by_cases h : c < we
    · rw [if_pos h]; simp
    · rw [if_neg h]; simp
  | cons hd tl ih =>
    intro c we hall hp
    obtain ⟨s, e⟩ := hd
    obtain ⟨hcs, hse⟩ := hall (s, e) (List.mem_cons_self _ _)
    rw [List.pairwise_cons] at hp
    have htl : ∀ iv ∈ tl, max c e ≤ iv.1 ∧ iv.1 < iv.2 := by
      intro iv hiv
      have h1 := hall iv (List.mem_cons_of_mem _ hiv)
      exact ⟨max_le h1.1 (le_of_lt (hp.1 iv hiv)), h1.2⟩
    rw [freeLoop]
    by_cases h : c < s
    · rw [if_pos h]
      rw [List.chain'_cons']
      refine ⟨?_, ih (max c e) we htl hp.2⟩
      intro p hpmem
      have hmem : p ∈ freeLoop (max c e) tl we := List.mem_of_mem_head? hpmem
      have h1 : max c e ≤ p.1 := freeLoop_cursor_le tl (max c e) we p hmem
      have h2 : e ≤ max c e := le_max_right c e
      exact ⟨le_of_lt (lt_of_lt_of_le (lt_of_le_of_lt hcs hse) (le_trans h2 h1)),
        lt_of_lt_of_le hse (le_trans h2 h1)⟩
    · rw [if_neg h]
      exact ih (max c e) we htl hp.2

/-- Exact complementation: a point of the window is covered either by the busy
list or by the complement the sweep produces, for busy lists that are pairwise
separated, proper, inside the window and at or after the cursor. -/
lemma freeLoop_cover : ∀ (bs : List (Int × Int)) (c we : Int),
    (∀ iv ∈ bs, c ≤ iv.1 ∧ iv.1 < iv.2 ∧ iv.2 ≤ we) →
    List.Pairwise (fun a b : Int × Int => a.2 < b.1) bs →
    ∀ t : Int, (c ≤ t ∧ t < we) ↔
      (mem_intervals t bs ∨ mem_intervals t (freeLoop c bs we)) := by
  intro bs
  induction bs with
  | nil =>
    intro c we _ _ t
    rw [freeLoop]
    by_cases h : c < we
    · rw [if_pos h]
      constructor
      · intro ht; exact Or.inr ⟨(c, we), List.mem_singleton_self _, ht.1, ht.2⟩
      · rintro (hb | hf)
        · exact absurd hb (mem_intervals_nil t)
        · obtain ⟨iv, hiv, h1, h2⟩ := hf
          rw [List.mem_singleton] at hiv
          rw [hiv] at h1 h2
          exact ⟨h1, h2⟩
    · rw [if_neg h]
      constructor
      · intro ht; exact absurd (lt_of_le_of_lt ht.1 ht.2) h
      · rintro (hb | hf)
        · exact absurd hb (mem_intervals_nil t)
        · exact absurd hf (mem_intervals_nil t)
  | cons hd tl ih =>
    intro c we hall hp t
    obtain ⟨s, e⟩ := hd
    obtain ⟨hcs, hse, hewe⟩ := hall (s, e) (List.mem_cons_self _ _)
    rw [List.pairwise_cons] at hp
    have htl : ∀ iv ∈ tl, max c e ≤ iv.1 ∧ iv.1 < iv.2 ∧ iv.2 ≤ we := by
      intro iv hiv
      have h1 := hall iv (List.mem_cons_of_mem _ hiv)
      exact ⟨max_le h1.1 (le_of_lt (hp.1 iv hiv)), h1.2.1, h1.2.2⟩
    have hmax : max c e = e := max_eq_right (le_of_lt (lt_of_le_of_lt hcs hse))
    have ihc := ih (max c e) we htl hp.2 t
    rw [hmax] at ihc
    rw [freeLoop]
    by_cases h : c < s
    · rw [if_pos h, mem_intervals_cons, mem_intervals_cons, hmax]
      constructor
      · intro hct
        by_cases h1 : t < s
        · exact Or.inr (Or.inl ⟨hct.1, h1⟩)
        · by_cases h2 : t < e
          · exact Or.inl (Or.inl ⟨le_of_not_lt h1, h2⟩)
          · rcases ihc.mp ⟨le_of_not_lt h2, hct.2⟩ with hA | hB
            · exact Or.inl (Or.inr hA)
            · exact Or.inr (Or.inr hB)
      · rintro ((h1 | h2) | (h3 | h4))
        · exact ⟨le_trans hcs h1.1, lt_of_lt_of_le h1.2 hewe⟩
        · have h5 := ihc.mpr (Or.inl h2)
          exact ⟨le_trans (le_of_lt (lt_of_le_of_lt hcs hse)) h5.1, h5.2⟩
        · exact ⟨h3.1, lt_of_lt_of_le (lt_of_lt_of_le h3.2 (le_of_lt hse)) hewe⟩
        · have h5 := ihc.mpr (Or.inr h4)
          exact ⟨le_trans (le_of_lt (lt_of_le_of_lt hcs hse)) h5.1, h5.2⟩
    · rw [if_neg h, mem_intervals_cons, hmax]
      have hcs' : c = s := le_antisymm hcs (le_of_not_lt h)
      constructor
      · intro hct
        by_cases h2 : t < e
        · exact Or.inl (Or.inl ⟨hcs' ▸ hct.1, h2⟩)
        · rcases ihc.mp ⟨le_of_not_lt h2, hct.2⟩ with hA | hB
          · exact Or.inl (Or.inr hA)
          · exact Or.inr hB
      · rintro ((h1 | h2) | h3)
        · exact ⟨hcs' ▸ h1.1, lt_of_lt_of_le h1.2 hewe⟩
        · have h5 := ihc.mpr (Or.inl h2)
          exact ⟨le_trans (le_of_lt (lt_of_le_of_lt hcs hse)) h5.1, h5.2⟩
        · have h5 := ihc.mpr (Or.inr h3)
          exact ⟨le_trans (le_of_lt (lt_of_le_of_lt hcs hse)) h5.1, h5.2⟩

/-- No point is covered both by the busy list and by the complement the sweep
produces. -/
lemma freeLoop_disjoint : ∀ (bs : List (Int × Int)) (c we : Int),
    (∀ iv ∈ bs, c ≤ iv.1 ∧ iv.1 < iv.2 ∧ iv.2 ≤ we) →
    List.Pairwise (fun a b : Int × Int => a.2 < b.1) bs →
    ∀ t : Int, mem_intervals t (freeLoop c bs we) → ¬ mem_intervals t bs := by
  intro bs
  induction bs with
  | nil => intro c we _ _ t _; exact mem_intervals_nil t
  | cons hd tl ih =>
    intro c we hall hp t hfree
    obtain ⟨s, e⟩ := hd
    obtain ⟨hcs, hse, _⟩ := hall (s, e) (List.mem_cons_self _ _)
    rw [List.pairwise_cons] at hp
    have htl : ∀ iv ∈ tl, max c e ≤ iv.1 ∧ iv.1 < iv.2 ∧ iv.2 ≤ we := by
      intro iv hiv
      have h1 := hall iv (List.mem_cons_of_mem _ hiv)
      exact ⟨max_le h1.1 (le_of_lt (hp.1 iv hiv)), h1.2.1, h1.2.2⟩
    have hmax : max c e = e := max_eq_right (le_of_lt (lt_of_le_of_lt hcs hse))
    rw [freeLoop] at hfree
    rw [mem_intervals_cons]
    by_cases h : c < s
    · rw [if_pos h, mem_intervals_cons, hmax] at hfree
      rcases hfree with h1 | h2
      · rintro (h3 | h4)
        · exact absurd (lt_of_le_of_lt h3.1 h1.2) (lt_irrefl s)
        · obtain ⟨iv, hiv, h5, _⟩ := h4
          have h6 : e < iv.1 := hp.1 iv hiv
          have : t < t :=
            lt_of_lt_of_le (lt_trans (lt_of_lt_of_le h1.2 (le_of_lt hse)) h6) h5
          exact absurd this (lt_irrefl t)
      · have het : e ≤ t := mem_freeLoop_cursor_le tl e we h2
        rintro (h3 | h4)
        · exact absurd (lt_of_le_of_lt het h3.2) (lt_irrefl e)
        · exact absurd h4 (ih e we (hmax ▸ htl) hp.2 t h2)
    · rw [if_neg h, hmax] at hfree
      have het : e ≤ t := mem_freeLoop_cursor_le tl e we hfree
      rintro (h3 | h4)
      · exact absurd (lt_of_le_of_lt het h3.2) (lt_irrefl e)
      · exact absurd h4 (ih e we (hmax ▸ htl) hp.2 t hfree)

/-- Every clipped survivor, hence every merged busy span, lies strictly inside
the window: `window_start ≤ start < end ≤ window_end`. -/
lemma busy_bounds (df : List OccupancyRecord) (track : String) (ws we : Int) :
    ∀ q ∈ get_busy_intervals_for_track df track ws we,
      ws ≤ q.1 ∧ q.1 < q.2 ∧ q.2 ≤ we := by
  intro q hq
  refine merge_intervals_forall (fun iv => ws ≤ iv.1 ∧ iv.1 < iv.2 ∧ iv.2 ≤ we)
    ?_ _ ?_ q hq
  · intro a b c d h1 h2
    exact ⟨h1.1, lt_of_lt_of_le h1.2.1 (le_max_left _ _), max_le h1.2.2 h2.2.2⟩
  · intro p hp
    rw [List.mem_filterMap] at hp
    obtain ⟨r, _, hr⟩ := hp
    by_cases hcond : max r.arrival ws < min r.departure we
    · rw [if_pos hcond] at hr
      obtain rfl := Option.some.inj hr
      exact ⟨le_max_right _ _, hcond, min_le_right _ _⟩
    · rw [if_neg hcond] at hr
      cases hr

/-- Busy spans are pairwise strictly separated. -/
lemma busy_pairwise_sep (df : List OccupancyRecord) (track : String)
    (ws we : Int) :
    List.Pairwise (fun a b : Int × Int => a.2 < b.1)
      (get_busy_intervals_for_track df track ws we) := by
  have hchain : List.Chain' le_sep (get_busy_intervals_for_track df track ws we) :=
    merge_intervals_chain _
  exact (chain_sep_pairwise hchain).imp (fun h => h.2)

/-- C1: for every window with `window.start < window.end`, every record set
and every track, the busy intervals returned by
`get_busy_intervals_for_track` and the free intervals returned by
`get_free_intervals_for_track` together cover the window exactly — reading an
interval `(s, e)` as the span `[s, e)`, a time point lies in
`[window.start, window.end)` precisely when some busy or some free interval
covers it, no point is covered by both a busy and a free interval, and each
of the two lists is sorted ascending by start and pairwise disjoint (each
interval even ends strictly before the next one starts). -/
theorem busy_free_partition (df : List OccupancyRecord) (track : String)
    (window_start window_end : Int) (_hw : window_start < window_end) :
    (∀ t : Int, (window_start ≤ t ∧ t < window_end) ↔
      (mem_intervals t (get_busy_intervals_for_track df track window_start window_end) ∨
       mem_intervals t (get_free_intervals_for_track df track window_start window_end))) ∧
    (∀ t : Int,
      ¬ (mem_intervals t (get_busy_intervals_for_track df track window_start window_end) ∧
         mem_intervals t (get_free_intervals_for_track df track window_start window_end))) ∧
    List.Pairwise (fun a b : Int × Int => a.1 < b.1 ∧ a.2 < b.1)
      (get_busy_intervals_for_track df track window_start window_end) ∧
    List.Pairwise (fun a b : Int × Int => a.1 < b.1 ∧ a.2 < b.1)
      (get_free_intervals_for_track df track window_start window_end) := by
  have hbounds := busy_bounds df track window_start window_end
  have hpair := busy_pairwise_sep df track window_start window_end
  have hfree : get_free_intervals_for_track df track window_start window_end =
      freeLoop window_start
        (get_busy_intervals_for_track df track window_start window_end)
        window_end := rfl
  refine ⟨?_, ?_, ?_, ?_⟩
  · intro t
    rw [hfree]
    exact freeLoop_cover _ window_start window_end hbounds hpair t
  · intro t ht
    rw [hfree] at ht
    exact freeLoop_disjoint _ window_start window_end hbounds hpair t ht.2 ht.1
  · refine (chain_sep_pairwise (merge_intervals_chain _)).imp_of_mem ?_
    intro a b ha _ hab
    exact ⟨lt_trans (hbounds a ha).2.1 hab.2, hab.2⟩
  · rw [hfree]
    have hchain := freeLoop_chain
      (get_busy_intervals_for_track df track window_start window_end)
      window_start window_end
      (fun iv hiv => ⟨(hbounds iv hiv).1, (hbounds iv hiv).2.1⟩) hpair
    refine (chain_sep_pairwise hchain).imp_of_mem ?_
    intro a b ha _ hab
    exact ⟨lt_trans (freeLoop_lt _ _ _ a ha) hab.2, hab.2⟩

/-! ### Claims -/

/-- Sample schedule used by concrete witnesses: the spec's end-to-end
scenario, with instants as minutes since midnight of 2025-12-01. -/
def sampleRecords : List OccupancyRecord :=
  [⟨"T1", "A", 310, 325⟩, ⟨"T2", "B", 305, 360⟩, ⟨"T3", "A", 330, 420⟩]

/-- C1: for every window with `window.start < window.end`, every record set
and every track, the busy intervals returned by
`get_busy_intervals_for_track` and the free intervals returned by
`get_free_intervals_for_track` together cover the window exactly: reading an
interval `(s, e)` as the span `[s, e)`, a time point lies in
`[window.start, window.end)` precisely when some busy or some free interval
covers it (no gaps), no point is covered by both a busy and a free interval
(no busy/free overlap), and each of the two lists is sorted ascending by
start and pairwise disjoint (each interval even ends strictly before the next
one starts). -/
theorem claim_busy_free_partition (df : List OccupancyRecord) (track : String)
    (window_start window_end : Int) (hw : window_start < window_end) :
    (∀ t : Int, (window_start ≤ t ∧ t < window_end) ↔
      (mem_intervals t (get_busy_intervals_for_track df track window_start window_end) ∨
       mem_intervals t (get_free_intervals_for_track df track window_start window_end))) ∧
    (∀ t : Int,
      ¬ (mem_intervals t (get_busy_intervals_for_track df track window_start window_end) ∧
         mem_intervals t (get_free_intervals_for_track df track window_start window_end))) ∧
    List.Pairwise (fun a b : Int × Int => a.1 < b.1 ∧ a.2 < b.1)
      (get_busy_intervals_for_track df track window_start window_end) ∧
    List.Pairwise (fun a b : Int × Int => a.1 < b.1 ∧ a.2 < b.1)
      (get_free_intervals_for_track df track window_start window_end) :=
  busy_free_partition df track window_start window_end hw

/-- C1 witness: the partition property at the spec's end-to-end scenario,
window `[05:00, 09:00]` in minutes, track `"A"`. -/
theorem claim_busy_free_partition_witness :
    (300 : Int) < 540 ∧
    ((∀ t : Int, ((300 : Int) ≤ t ∧ t < 540) ↔
      (mem_intervals t (get_busy_intervals_for_track sampleRecords "A" 300 540) ∨
       mem_intervals t (get_free_intervals_for_track sampleRecords "A" 300 540))) ∧
    (∀ t : Int,
      ¬ (mem_intervals t (get_busy_intervals_for_track sampleRecords "A" 300 540) ∧
         mem_intervals t (get_free_intervals_for_track sampleRecords "A" 300 540))) ∧
    List.Pairwise (fun a b : Int × Int => a.1 < b.1 ∧ a.2 < b.1)
      (get_busy_intervals_for_track sampleRecords "A" 300 540) ∧
    List.Pairwise (fun a b : Int × Int => a.1 < b.1 ∧ a.2 < b.1)
      (get_free_intervals_for_track sampleRecords "A" 300 540)) :=
  ⟨by decide, claim_busy_free_partition sampleRecords "A" 300 540 (by decide)⟩

/-- C2: for every input list of intervals each with `start ≤ end`, the output
of `merge_intervals` is sorted (strictly) ascending by start, and every pair
of consecutive output intervals satisfies `output[i].end < output[i+1].start`
— so the outputs are pairwise disjoint. -/
theorem merge_intervals_sorted_separated (l : List (Int × Int))
    (h : ∀ iv ∈ l, iv.1 ≤ iv.2) :
    List.Pairwise (fun a b : Int × Int => a.1 < b.1) (merge_intervals l) ∧
    List.Chain' (fun a b : Int × Int => a.2 < b.1) (merge_intervals l) := by
  have hle := merge_intervals_le l h
  have hchain := merge_intervals_chain l
  refine ⟨?_, hchain.imp (fun _ _ hab => hab.2)⟩
  refine (chain_sep_pairwise hchain).imp_of_mem ?_
  intro a b ha _ hab
  exact lt_of_le_of_lt (hle a ha) hab.2

/-- C2 witness: sortedness and strict separation on a concrete overlapping
input. -/
theorem merge_intervals_sorted_separated_witness :
    (∀ iv ∈ [((0 : Int), 2), ((1 : Int), 3), ((10 : Int), 12)], iv.1 ≤ iv.2) ∧
    (List.Pairwise (fun a b : Int × Int => a.1 < b.1)
      (merge_intervals [((0 : Int), 2), ((1 : Int), 3), ((10 : Int), 12)]) ∧
     List.Chain' (fun a b : Int × Int => a.2 < b.1)
      (merge_intervals [((0 : Int), 2), ((1 : Int), 3), ((10 : Int), 12)])) :=
  ⟨by decide, merge_intervals_sorted_separated
    [((0 : Int), 2), ((1 : Int), 3), ((10 : Int), 12)] (by decide)⟩

/-- C3: adjacency counts as overlap: two touching intervals, where the first
ends exactly where the second starts, are coalesced into a single span — in
particular `merge_intervals [(0, 10), (10, 20)] = [(0, 20)]`. -/
theorem merge_adjacent_coalesce (a b c : Int) (h1 : a ≤ b) (h2 : b ≤ c) :
    merge_intervals [(a, b), (b, c)] = [(a, c)] := by
  have hsorted : List.Sorted le1 [(a, b), (b, c)] := by
    refine List.sorted_cons.mpr ⟨?_, List.sorted_singleton _⟩
    intro p hp
    rw [List.mem_singleton] at hp
    rw [hp]
    exact h1
  unfold merge_intervals
  rw [hsorted.insertionSort_eq]
  show mergeLoop (a, b) [(b, c)] = [(a, c)]
  rw [mergeLoop, if_pos (le_refl b), mergeLoop, max_eq_right h2]

/-- C3 witness: the spec's adjacency example. -/
theorem merge_adjacent_coalesce_witness :
    (0 : Int) ≤ 10 ∧ (10 : Int) ≤ 20 ∧
    merge_intervals [((0 : Int), 10), ((10 : Int), 20)] = [(0, 20)] :=
  ⟨by decide, by decide, merge_adjacent_coalesce 0 10 20 (by decide) (by decide)⟩

/-- C4: `find_first_free_slot` is first fit: when it returns a slot, the
input splits as `pre ++ iv :: post` where every interval of `pre` is too
short, `iv` is the first interval with `end - start` at least the required
duration, and the slot is exactly `(iv.start, iv.start + duration)`; it
returns `none` (absence, not an error) precisely when every interval is too
short — in particular on the empty list. -/
theorem find_first_free_slot_first_fit (l : List (Int × Int)) (m : Int) :
    match find_first_free_slot l m with
    | none => ∀ iv ∈ l, iv.2 - iv.1 < m * 60
    | some slot => ∃ pre iv post, l = pre ++ iv :: post ∧
        (∀ p ∈ pre, p.2 - p.1 < m * 60) ∧ m * 60 ≤ iv.2 - iv.1 ∧
        slot = (iv.1, iv.1 + m * 60) := by
  induction l with
  | nil =>
    intro iv hiv
    cases hiv
  | cons hd tl ih =>
    obtain ⟨s, e⟩ := hd
    rw [find_first_free_slot]
    by_cases h : m * 60 ≤ e - s
    · rw [if_pos h]
      exact ⟨[], (s, e), tl, rfl, fun p hp => absurd hp (List.not_mem_nil p), h, rfl⟩
    · rw [if_neg h]
      cases hfind : find_first_free_slot tl m with
      | none =>
        rw [hfind] at ih
        intro iv hiv
        rcases List.mem_cons.mp hiv with h1 | h2
        · rw [h1]
          exact not_le.mp h
        · exact ih iv h2
      | some slot =>
        rw [hfind] at ih
        obtain ⟨pre, iv, post, heq, hpre, hiv, hslot⟩ := ih
        refine ⟨(s, e) :: pre, iv, post, by rw [List.cons_append, heq], ?_, hiv, hslot⟩
        intro p hp
        rcases List.mem_cons.mp hp with h1 | h2
        · rw [h1]
          exact not_le.mp h
        · exact hpre p h2

/-- C5 counterexample: zero-length intervals are NOT dropped by
`merge_intervals`: `merge_intervals [(0, 0)] = [(0, 0)]`, so the output can
contain an interval with `start = end`. -/
theorem merge_zero_length_cex :
    ¬ (∀ iv ∈ merge_intervals [((0 : Int), (0 : Int))], iv.1 < iv.2) := by
  decide

/-- C5 amended: degenerate zero-length intervals are legal inputs to
`merge_intervals` and are passed through rather than dropped; every interval
in the output of `get_free_intervals_for_track` satisfies `start < end`, and
the output of `merge_intervals` satisfies `start < end` provided every input
interval does (the `start < end` filter lives in the busy-clipping step, not
in the merge). -/
theorem merge_free_outputs_proper (df : List OccupancyRecord) (track : String)
    (ws we : Int) (l : List (Int × Int)) (h : ∀ iv ∈ l, iv.1 < iv.2) :
    (∀ iv ∈ merge_intervals l, iv.1 < iv.2) ∧
    (∀ iv ∈ get_free_intervals_for_track df track ws we, iv.1 < iv.2) :=
  ⟨merge_intervals_lt l h, fun iv hiv => freeLoop_lt _ _ _ iv hiv⟩

/-- C5 amended witness. -/
theorem merge_free_outputs_proper_witness :
    (∀ iv ∈ [((0 : Int), 5), ((3 : Int), 4)], iv.1 < iv.2) ∧
    ((∀ iv ∈ merge_intervals [((0 : Int), 5), ((3 : Int), 4)], iv.1 < iv.2) ∧
     (∀ iv ∈ get_free_intervals_for_track sampleRecords "A" 300 540,
        iv.1 < iv.2)) :=
  ⟨by decide, merge_free_outputs_proper sampleRecords "A" 300 540
    [((0 : Int), 5), ((3 : Int), 4)] (by decide)⟩

/-- C6: `get_busy_intervals_for_track` keeps only records of the queried
track, clips each to the window via `max`/`min`, discards clips with
`start ≥ end`, and merges the survivors (this is its definition); every
resulting busy span is fully contained in the window:
`window_start ≤ start < end ≤ window_end`. -/
theorem get_busy_clipped_in_window (df : List OccupancyRecord) (track : String)
    (ws we : Int) (iv : Int × Int)
    (hiv : iv ∈ get_busy_intervals_for_track df track ws we) :
    ws ≤ iv.1 ∧ iv.1 < iv.2 ∧ iv.2 ≤ we :=
  busy_bounds df track ws we iv hiv

/-- Record used for the C6 witness: arrival 04:50 before the window start
05:00 (minutes since midnight), so its busy span is clipped to the window. -/
def clipSample : List OccupancyRecord := [⟨"T10", "A", 290, 315⟩]

/-- C6 witness: the spec's clipping example, record `(04:50, 05:15)` against
window `[05:00, 09:00]` yielding busy span `(05:00, 05:15)`. -/
theorem get_busy_clipped_in_window_witness :
    ((300 : Int), (315 : Int)) ∈ get_busy_intervals_for_track clipSample "A" 300 540 ∧
    ((300 : Int) ≤ ((300 : Int), (315 : Int)).1 ∧
     ((300 : Int), (315 : Int)).1 < ((300 : Int), (315 : Int)).2 ∧
     ((300 : Int), (315 : Int)).2 ≤ 540) :=
  ⟨by decide, get_busy_clipped_in_window clipSample "A" 300 540 (300, 315) (by decide)⟩

/-- C7: `merge_intervals` is idempotent on lists of intervals with
`start ≤ end`: merging an already merged list changes nothing. -/
theorem merge_intervals_idem (l : List (Int × Int))
    (_h : ∀ iv ∈ l, iv.1 ≤ iv.2) :
    merge_intervals (merge_intervals l) = merge_intervals l := by
  have key : ∀ m : List (Int × Int), List.Sorted le1 m →
      List.Chain' (fun a b : Int × Int => a.2 < b.1) m →
      merge_intervals m = m := by
    intro m hsorted hchain
    unfold merge_intervals
    rw [hsorted.insertionSort_eq]
    cases m with
    | nil => rfl
    | cons x xs =>
      show mergeLoop x xs = x :: xs
      rw [List.chain'_cons'] at hchain
      exact mergeLoop_of_sep xs x hchain.1 hchain.2
  exact key (merge_intervals l) (merge_intervals_sorted l)
    ((merge_intervals_chain l).imp (fun _ _ hab => hab.2))

/-- C7 witness: idempotence on a concrete overlapping input. -/
theorem merge_intervals_idem_witness :
    (∀ iv ∈ [((0 : Int), 2), ((1 : Int), 3), ((10 : Int), 10)], iv.1 ≤ iv.2) ∧
    merge_intervals (merge_intervals [((0 : Int), 2), ((1 : Int), 3), ((10 : Int), 10)]) =
      merge_intervals [((0 : Int), 2), ((1 : Int), 3), ((10 : Int), 10)] :=
  ⟨by decide, merge_intervals_idem
    [((0 : Int), 2), ((1 : Int), 3), ((10 : Int), 10)] (by decide)⟩

/-- C8 counterexample: a required duration of 0 is NOT rejected with an
`InvalidDuration` error: with the single free interval `(0, 300)` the slot
finder returns the degenerate slot `(0, 0)`. -/
theorem find_first_free_slot_zero_duration_cex :
    find_first_free_slot [((0 : Int), 300)] 0 = some (0, 0) := by
  decide

/-- C8 amended: `find_first_free_slot` performs no duration validation: for
any `required_minutes ≤ 0` and any free list whose first interval `(s, e)`
has `s ≤ e`, it returns the degenerate (or reversed) slot
`(s, s + required_minutes * 60)` instead of an `InvalidDuration` error; only
the UI widget restricts the duration input to at least 1 minute. -/
theorem find_first_free_slot_nonpos_duration (l : List (Int × Int))
    (m s e : Int) (hm : m ≤ 0) (hhead : l.head? = some (s, e)) (hse : s ≤ e) :
    find_first_free_slot l m = some (s, s + m * 60) := by
  cases l with
  | nil => cases hhead
  | cons hd tl =>
    rw [List.head?_cons] at hhead
    have hd_eq : hd = (s, e) := Option.some.inj hhead
    subst hd_eq
    rw [find_first_free_slot, if_pos (by omega : m * 60 ≤ e - s)]

/-- C8 amended witness: duration −1 minute on free list `[(0, 300)]`. -/
theorem find_first_free_slot_nonpos_duration_witness :
    (-1 : Int) ≤ 0 ∧ [((0 : Int), 300)].head? = some (0, 300) ∧ (0 : Int) ≤ 300 ∧
    find_first_free_slot [((0 : Int), 300)] (-1) = some (0, 0 + (-1) * 60) :=
  ⟨by decide, by decide, by decide,
    find_first_free_slot_nonpos_duration [((0 : Int), 300)] (-1) 0 300
      (by decide) (by decide) (by decide)⟩

/-- C9: a query window with `start ≥ end` (in particular `start = end`) is
rejected immediately at the interface boundary rather than silently producing
results: `compute_slots_for_all_tracks` raises its `ValueError` (the spec's
`InvalidWindow`) and the app's Compute-Slots handler shows its error message
and computes nothing. -/
theorem invalid_window_rejected (df : List OccupancyRecord) (track : String)
    (ws we m : Int) (h : ws ≥ we) :
    compute_slots_for_all_tracks df ws we =
      Except.error "window_start must be before window_end" ∧
    compute_slots_handler df track ws we m =
      Except.error "Window start must be before window end." := by
  constructor
  · unfold compute_slots_for_all_tracks
    rw [if_pos h]
  · unfold compute_slots_handler
    rw [if_pos h]

/-- C9 witness: the degenerate window `start = end`. -/
theorem invalid_window_rejected_witness :
    (5 : Int) ≥ 5 ∧
    (compute_slots_for_all_tracks [] 5 5 =
      Except.error "window_start must be before window_end" ∧
     compute_slots_handler [] "A" 5 5 10 =
      Except.error "Window start must be before window end.") :=
  ⟨by decide, invalid_window_rejected [] "A" 5 5 10 (by decide)⟩

/-- C10: the model `merge_intervals` is a pure function of its input (its
embedding leaves the caller's list untouched by construction — it sorts a
copy), whereas the `app.py` `merge_intervals` sorts the caller's list in
place: after a call on a non-empty list the argument holds the sorted list,
so it may be reordered — as on `[(1, 1), (0, 0)]` — while on the empty list
it is returned untouched; apart from this side effect the two implementations
return equal results on every input. -/
theorem merge_intervals_app_frame (l : List (Int × Int)) :
    (merge_intervals_app l).2 = merge_intervals l ∧
    (merge_intervals_app l).1 =
      (if l.isEmpty then l else List.insertionSort le1 l) ∧
    (merge_intervals_app [((1 : Int), 1), ((0 : Int), 0)]).1 ≠
      [((1 : Int), 1), ((0 : Int), 0)] := by
  refine ⟨?_, ?_, by decide⟩
  · cases l with
    | nil => rfl
    | cons hd tl => rfl
  · cases l with
    | nil => rfl
    | cons hd tl => rfl
